import Mathlib

/-!
Verification of the encrypted-ledger engine of `src/app.py` (a Flask banking
app storing CKKS-encrypted balances via TenSEAL).

Shallow embedding conventions:
* A CKKS ciphertext holding one real slot is modelled as a structure carrying
  the exact rational value of that slot (`Ciphertext`).  CKKS arithmetic is
  approximate; the idealized model has zero approximation error, so every
  statement "within the scheme's approximation tolerance" is established
  exactly.
* A stored `encrypted_balance` column value is `Option Blob`: `none` models a
  Python-falsy blob (`None` or empty bytes, the `if self.encrypted_balance:`
  test in the getter), `some (Blob.valid v)` a well-formed serialized
  ciphertext whose slot decrypts to `v`, and `some Blob.malformed` present
  bytes on which `ts.ckks_vector_from` raises.
* Python's `round(x, 2)` is modelled on rationals as round-half-to-even of
  `x * 100`, divided by 100 (`round2`).
* The SQLAlchemy table of users is a `List Account`; `User.query.get(id)` /
  `filter_by(username=...).first()` are `find?` over the list.  The identity
  map of a SQLAlchemy session means the two attribute assignments of the
  transfer route hit the same record when sender and recipient coincide; with
  a list keyed by id this is exactly two successive `updateById` writes, the
  second overwriting the first.
* An unhandled Python exception in a route (missing user, undeserializable
  blob) aborts the request before `db.session.commit()`, so it is modelled as
  an error result with the ledger unchanged.
-/

namespace EncLedger

/-- Idealized CKKS ciphertext: one real-valued slot, carried exactly. -/
structure Ciphertext where
  value : ℚ
deriving DecidableEq

/-- `ts.ckks_vector(context, [x])`: encrypt a single-slot vector. -/
def encrypt (x : ℚ) : Ciphertext := ⟨x⟩

/-- `encrypted.decrypt()[0]`: the first (only) slot of the decoded plaintext. -/
def decryptSlot (c : Ciphertext) : ℚ := c.value

/-- Homomorphic addition of ciphertexts (`+` on `ckks_vector`s). -/
def ctAdd (c d : Ciphertext) : Ciphertext := ⟨c.value + d.value⟩

/-- Homomorphic subtraction of ciphertexts (`-` on `ckks_vector`s). -/
def ctSub (c d : Ciphertext) : Ciphertext := ⟨c.value - d.value⟩

/-- A stored serialized-ciphertext byte blob: either well formed (recording the
slot value it decrypts to) or present-but-undeserializable. -/
inductive Blob where
  | valid (v : ℚ)
  | malformed
deriving DecidableEq

/-- `ckks_vector.serialize()`. -/
def serializeCt (c : Ciphertext) : Blob := .valid c.value

/-- `ts.ckks_vector_from(context, blob)`: `none` models the raised exception on
undeserializable bytes. -/
def deserializeCt : Blob → Option Ciphertext
  | .valid v => some ⟨v⟩
  | .malformed => none

/-- The codec's encode direction: encrypt then serialize. -/
def encodeBalance (x : ℚ) : Blob := serializeCt (encrypt x)

/-- The codec's raw decode direction: deserialize then decrypt, without the
two-digit presentation rounding. -/
def decodeBalanceRaw (b : Blob) : Option ℚ := (deserializeCt b).map decryptSlot

/-- Floor of a rational as an integer (`Int.fdiv` floors). -/
def qfloor (q : ℚ) : ℤ := q.num.fdiv (q.den : ℤ)

/-- Round-half-to-even to the nearest integer, as Python's `round` does. -/
def roundHalfToEven (q : ℚ) : ℤ :=
  let f := qfloor q
  let r := q - (f : ℚ)
  if r < 1/2 then f
  else if 1/2 < r then f + 1
  else if 2 ∣ f then f else f + 1

/-- Python's `round(x, 2)` on the idealized rational value. -/
def round2 (q : ℚ) : ℚ := (roundHalfToEven (q * 100) : ℚ) / 100

/-- The `User.balance` property getter: a falsy blob yields `0.0`; a valid blob
is deserialized, decrypted and rounded to two digits; malformed bytes raise
(`none`). -/
def balanceOf : Option Blob → Option ℚ
  | none => some 0
  | some (Blob.valid v) => some (round2 v)
  | some Blob.malformed => none

/-- The `User.balance` property setter: encrypt the value and serialize. -/
def balanceSetter (v : ℚ) : Option Blob := some (serializeCt (encrypt v))

/-- The slot value a stored column contributes to the ledger total: the exact
decrypted value of a valid blob, `0` otherwise. -/
def rawVal (ob : Option Blob) : ℚ :=
  match ob with
  | some (Blob.valid v) => v
  | _ => 0

/-- A row of the `User` table (credential columns are irrelevant here). -/
structure Account where
  id : ℕ
  username : String
  blob : Option Blob
deriving DecidableEq

/-- `User.query.get(uid)`. -/
def findById (st : List Account) (i : ℕ) : Option Account :=
  st.find? (fun a => a.id == i)

/-- `User.query.filter_by(username=name).first()`. -/
def findByName (st : List Account) (nm : String) : Option Account :=
  st.find? (fun a => a.username == nm)

/-- Assign the `encrypted_balance` column of the row with id `i` (no-op when
no row matches, matching an ORM write to an absent object never occurring). -/
def updateById (st : List Account) (i : ℕ) (b : Option Blob) : List Account :=
  st.map (fun a => if a.id = i then { a with blob := b } else a)

/-- Auto-increment primary key for a fresh row. -/
def freshId (st : List Account) : ℕ :=
  st.foldr (fun a m => max a.id m) 0 + 1

/-- Success or failure of a route's ledger action.  `err` covers both the
flashed error branches and unhandled exceptions (which abort before commit). -/
inductive OpResult where
  | ok
  | err
deriving DecidableEq

/-- The `/register` POST route: reject a duplicate username, otherwise create
the row with `new_user.balance = 0.0` through the encrypted setter. -/
def register (st : List Account) (uname : String) : OpResult × List Account :=
  if st.any (fun a => a.username == uname) then (.err, st)
  else (.ok, st ++ [{ id := freshId st, username := uname, blob := balanceSetter 0 }])

/-- The `/deposit` POST route: deserialize the current blob, homomorphically
add `encrypt amount`, store the result.  No check on `amount` at all. -/
def deposit (st : List Account) (uid : ℕ) (m : ℚ) : OpResult × List Account :=
  match findById st uid with
  | none => (.err, st)
  | some u =>
    match u.blob.bind deserializeCt with
    | none => (.err, st)
    | some cur =>
      (.ok, updateById st uid (some (serializeCt (ctAdd cur (encrypt m)))))

/-- The `/withdraw` POST route: guard `user.balance >= amount` on the rounded
getter value, then store the homomorphic difference. -/
def withdraw (st : List Account) (uid : ℕ) (m : ℚ) : OpResult × List Account :=
  match findById st uid with
  | none => (.err, st)
  | some u =>
    match balanceOf u.blob with
    | none => (.err, st)
    | some bal =>
      if m ≤ bal then
        match u.blob.bind deserializeCt with
        | none => (.err, st)
        | some cur =>
          (.ok, updateById st uid (some (serializeCt (ctSub cur (encrypt m)))))
      else (.err, st)

/-- The `/transfer` POST route: guard `recipient and sender.balance >= amount`,
deserialize both blobs, write sender's debited blob then recipient's credited
blob (reads precede both writes; the second write overwrites the first when
the two rows coincide). -/
def transfer (st : List Account) (sid : ℕ) (rname : String) (m : ℚ) :
    OpResult × List Account :=
  match findById st sid with
  | none => (.err, st)
  | some sender =>
    match findByName st rname with
    | none => (.err, st)
    | some recipient =>
      match balanceOf sender.blob with
      | none => (.err, st)
      | some sbal =>
        if m ≤ sbal then
          match sender.blob.bind deserializeCt, recipient.blob.bind deserializeCt with
          | some sc, some rc =>
            (.ok, updateById
                    (updateById st sid (some (serializeCt (ctSub sc (encrypt m)))))
                    recipient.id (some (serializeCt (ctAdd rc (encrypt m)))))
          | some _, none => (.err, st)
          | none, _ => (.err, st)
        else (.err, st)

/-- One ledger operation of the kind quantified over by the conservation
property. -/
inductive Op where
  | deposit (uid : ℕ) (amount : ℚ)
  | withdraw (uid : ℕ) (amount : ℚ)
  | transfer (sid : ℕ) (rname : String) (amount : ℚ)

/-- Dispatch one operation. -/
def applyOp (st : List Account) : Op → OpResult × List Account
  | .deposit uid m => deposit st uid m
  | .withdraw uid m => withdraw st uid m
  | .transfer sid rname m => transfer st sid rname m

/-- The contribution of one completed operation to the net
deposited-minus-withdrawn tally: only successful deposits and withdrawals
count; transfers and failed operations count zero. -/
def opDelta : Op → OpResult → ℚ
  | .deposit _ m, .ok => m
  | .withdraw _ m, .ok => -m
  | _, _ => 0

/-- Run a sequence of operations, returning the final ledger and the net of
successfully deposited amounts minus successfully withdrawn amounts. -/
def runNet (st : List Account) : List Op → List Account × ℚ
  | [] => (st, 0)
  | op :: rest =>
    ((runNet (applyOp st op).2 rest).1,
      opDelta op (applyOp st op).1 + (runNet (applyOp st op).2 rest).2)

/-- Sum of the exact decrypted slot values of all stored balances. -/
def total (st : List Account) : ℚ :=
  (st.map (fun a => rawVal a.blob)).sum

/-- `true` unless the operation is a transfer whose recipient username resolves
to the sender's own row. -/
def opNotSelf (st : List Account) : Op → Bool
  | .transfer sid rname _ =>
    match findByName st rname with
    | some r => r.id != sid
    | none => true
  | _ => true

/-- All transfers in the sequence resolve, at their point of execution, to a
recipient row distinct from the sender's row. -/
def noSelfTransferB : List Account → List Op → Bool
  | _, [] => true
  | st, op :: rest => opNotSelf st op && noSelfTransferB (applyOp st op).2 rest

/-! ### Helper lemmas about lookup, update and the ledger total -/

theorem findById_cons (a : Account) (st : List Account) (i : ℕ) :
    findById (a :: st) i = if a.id = i then some a else findById st i := by
  by_cases h : a.id = i <;> simp [findById, List.find?_cons, h]

theorem findById_id {st : List Account} {i : ℕ} {a : Account}
    (h : findById st i = some a) : a.id = i := by
  have := List.find?_some h
  simpa using this

theorem findById_mem {st : List Account} {i : ℕ} {a : Account}
    (h : findById st i = some a) : a ∈ st :=
  List.mem_of_find?_eq_some h

theorem findByName_mem {st : List Account} {nm : String} {a : Account}
    (h : findByName st nm = some a) : a ∈ st :=
  List.mem_of_find?_eq_some h

theorem mem_findById {st : List Account} {a : Account} (h : a ∈ st)
    (hn : (st.map Account.id).Nodup) : findById st a.id = some a := by
  induction st with
  | nil => cases h
  | cons b st ih =>
    simp only [List.map_cons, List.nodup_cons] at hn
    rcases List.mem_cons.mp h with rfl | h'
    · simp [findById_cons]
    · have hb : b.id ≠ a.id := fun he => hn.1 (he ▸ List.mem_map_of_mem Account.id h')
      rw [findById_cons, if_neg hb]
      exact ih h' hn.2

theorem updateById_cons (a : Account) (st : List Account) (i : ℕ) (b : Option Blob) :
    updateById (a :: st) i b
      = (if a.id = i then { a with blob := b } else a) :: updateById st i b := by
  simp [updateById]

theorem updateById_id_map (st : List Account) (i : ℕ) (b : Option Blob) :
    (updateById st i b).map Account.id = st.map Account.id := by
  induction st with
  | nil => rfl
  | cons a st ih => by_cases h : a.id = i <;> simp [updateById_cons, h, ih]

theorem updateById_not_mem {st : List Account} {i : ℕ} {b : Option Blob}
    (h : i ∉ st.map Account.id) : updateById st i b = st := by
  induction st with
  | nil => rfl
  | cons a st ih =>
    simp only [List.map_cons, List.mem_cons] at h
    push_neg at h
    rw [updateById_cons, if_neg (fun he => h.1 he.symm), ih h.2]

theorem total_cons (a : Account) (st : List Account) :
    total (a :: st) = rawVal a.blob + total st := by
  simp [total]

theorem total_updateById {st : List Account} {i : ℕ} {a : Account} (b : Option Blob)
    (hn : (st.map Account.id).Nodup) (hf : findById st i = some a) :
    total (updateById st i b) = total st - rawVal a.blob + rawVal b := by
  induction st with
  | nil => simp [findById] at hf
  | cons c st ih =>
    simp only [List.map_cons, List.nodup_cons] at hn
    rw [findById_cons] at hf
    by_cases h : c.id = i
    · rw [if_pos h] at hf
      injection hf with hf
      subst hf
      rw [updateById_cons, if_pos h]
      rw [updateById_not_mem (h ▸ hn.1)]
      simp only [total_cons]
      ring
    · rw [if_neg h] at hf
      rw [updateById_cons, if_neg h, total_cons, total_cons, ih hn.2 hf]
      ring

theorem findById_updateById_ne {i j : ℕ} (st : List Account) (b : Option Blob)
    (h : j ≠ i) : findById (updateById st i b) j = findById st j := by
  induction st with
  | nil => rfl
  | cons a st ih =>
    rw [updateById_cons]
    by_cases hai : a.id = i
    · have hne : a.id ≠ j := fun hh => h (by rw [← hh]; exact hai)
      rw [if_pos hai, findById_cons, findById_cons, if_neg hne]
      have : ({ a with blob := b } : Account).id = a.id := rfl
      rw [if_neg (this ▸ hne), ih]
    · rw [if_neg hai, findById_cons, findById_cons]
      by_cases haj : a.id = j <;> simp [haj, ih]

theorem updateById_updateById_same (st : List Account) (i : ℕ) (b b' : Option Blob) :
    updateById (updateById st i b) i b' = updateById st i b' := by
  induction st with
  | nil => rfl
  | cons a st ih => by_cases h : a.id = i <;> simp [updateById_cons, h, ih]

theorem bind_deserialize_eq {ob : Option Blob} {c : Ciphertext}
    (h : ob.bind deserializeCt = some c) : ob = some (Blob.valid c.value) := by
  match ob with
  | none => simp at h
  | some (Blob.valid v) =>
    have h' : (⟨v⟩ : Ciphertext) = c := Option.some.inj h
    rw [← h']
  | some Blob.malformed => simp [deserializeCt] at h

theorem balanceOf_valid (v : ℚ) : balanceOf (some (Blob.valid v)) = some (round2 v) := rfl

theorem rawVal_valid (v : ℚ) : rawVal (some (Blob.valid v)) = v := rfl

/-! ### Operation-level lemmas -/

theorem deposit_split (st : List Account) (uid : ℕ) (m : ℚ) :
    (∃ st', deposit st uid m = (OpResult.ok, st'))
      ∨ deposit st uid m = (OpResult.err, st) := by
  unfold deposit
  split
  · exact Or.inr rfl
  · split
    · exact Or.inr rfl
    · exact Or.inl ⟨_, rfl⟩

theorem withdraw_split (st : List Account) (uid : ℕ) (m : ℚ) :
    (∃ st', withdraw st uid m = (OpResult.ok, st'))
      ∨ withdraw st uid m = (OpResult.err, st) := by
  unfold withdraw
  split
  · exact Or.inr rfl
  · split
    · exact Or.inr rfl
    · split
      · split
        · exact Or.inr rfl
        · exact Or.inl ⟨_, rfl⟩
      · exact Or.inr rfl

theorem transfer_split (st : List Account) (sid : ℕ) (rname : String) (m : ℚ) :
    (∃ st', transfer st sid rname m = (OpResult.ok, st'))
      ∨ transfer st sid rname m = (OpResult.err, st) := by
  unfold transfer
  split
  · exact Or.inr rfl
  · split
    · exact Or.inr rfl
    · split
      · exact Or.inr rfl
      · split
        · split
          · exact Or.inl ⟨_, rfl⟩
          · exact Or.inr rfl
          · exact Or.inr rfl
        · exact Or.inr rfl

theorem deposit_err {st : List Account} {uid : ℕ} {m : ℚ}
    (h : (deposit st uid m).1 = OpResult.err) : (deposit st uid m).2 = st := by
  rcases deposit_split st uid m with ⟨st', he⟩ | he
  · rw [he] at h; exact absurd h (by simp)
  · rw [he]

theorem withdraw_err {st : List Account} {uid : ℕ} {m : ℚ}
    (h : (withdraw st uid m).1 = OpResult.err) : (withdraw st uid m).2 = st := by
  rcases withdraw_split st uid m with ⟨st', he⟩ | he
  · rw [he] at h; exact absurd h (by simp)
  · rw [he]

theorem transfer_err {st : List Account} {sid : ℕ} {rname : String} {m : ℚ}
    (h : (transfer st sid rname m).1 = OpResult.err) :
    (transfer st sid rname m).2 = st := by
  rcases transfer_split st sid rname m with ⟨st', he⟩ | he
  · rw [he] at h; exact absurd h (by simp)
  · rw [he]

theorem deposit_id_map (st : List Account) (uid : ℕ) (m : ℚ) :
    ((deposit st uid m).2).map Account.id = st.map Account.id := by
  unfold deposit
  split
  · rfl
  · split
    · rfl
    · exact updateById_id_map _ _ _

theorem withdraw_id_map (st : List Account) (uid : ℕ) (m : ℚ) :
    ((withdraw st uid m).2).map Account.id = st.map Account.id := by
  unfold withdraw
  split
  · rfl
  · split
    · rfl
    · split
      · split
        · rfl
        · exact updateById_id_map _ _ _
      · rfl

theorem transfer_id_map (st : List Account) (sid : ℕ) (rname : String) (m : ℚ) :
    ((transfer st sid rname m).2).map Account.id = st.map Account.id := by
  unfold transfer
  split
  · rfl
  · split
    · rfl
    · split
      · rfl
      · split
        · split
          · rw [updateById_id_map, updateById_id_map]
          · rfl
          · rfl
        · rfl

theorem applyOp_id_map (st : List Account) (op : Op) :
    ((applyOp st op).2).map Account.id = st.map Account.id := by
  cases op with
  | deposit uid m => exact deposit_id_map st uid m
  | withdraw uid m => exact withdraw_id_map st uid m
  | transfer sid rname m => exact transfer_id_map st sid rname m

theorem deposit_ok_inv {st : List Account} {uid : ℕ} {m : ℚ} {st' : List Account}
    (h : deposit st uid m = (OpResult.ok, st')) :
    ∃ u c, findById st uid = some u ∧ u.blob.bind deserializeCt = some c ∧
      st' = updateById st uid (some (serializeCt (ctAdd c (encrypt m)))) := by
  unfold deposit at h
  split at h
  · exact absurd h (by simp)
  · rename_i u heq
    split at h
    · exact absurd h (by simp)
    · rename_i c heq2
      simp only [Prod.mk.injEq, true_and] at h
      exact ⟨u, c, heq, heq2, h.symm⟩

theorem withdraw_ok_inv {st : List Account} {uid : ℕ} {m : ℚ} {st' : List Account}
    (h : withdraw st uid m = (OpResult.ok, st')) :
    ∃ u bal c, findById st uid = some u ∧ balanceOf u.blob = some bal ∧ m ≤ bal ∧
      u.blob.bind deserializeCt = some c ∧
      st' = updateById st uid (some (serializeCt (ctSub c (encrypt m)))) := by
  unfold withdraw at h
  split at h
  · exact absurd h (by simp)
  · rename_i u heq
    split at h
    · exact absurd h (by simp)
    · rename_i bal heq2
      split at h
      · rename_i hle
        split at h
        · exact absurd h (by simp)
        · rename_i c heq3
          simp only [Prod.mk.injEq, true_and] at h
          exact ⟨u, bal, c, heq, heq2, hle, heq3, h.symm⟩
      · exact absurd h (by simp)

theorem transfer_ok_inv {st : List Account} {sid : ℕ} {rname : String} {m : ℚ}
    {st' : List Account} (h : transfer st sid rname m = (OpResult.ok, st')) :
    ∃ sender recipient sbal sc rc,
      findById st sid = some sender ∧ findByName st rname = some recipient ∧
      balanceOf sender.blob = some sbal ∧ m ≤ sbal ∧
      sender.blob.bind deserializeCt = some sc ∧
      recipient.blob.bind deserializeCt = some rc ∧
      st' = updateById (updateById st sid (some (serializeCt (ctSub sc (encrypt m)))))
              recipient.id (some (serializeCt (ctAdd rc (encrypt m)))) := by
  unfold transfer at h
  split at h
  · exact absurd h (by simp)
  · rename_i sender heq
    split at h
    · exact absurd h (by simp)
    · rename_i recipient heq2
      split at h
      · exact absurd h (by simp)
      · rename_i sbal heq3
        split at h
        · rename_i hle
          split at h
          · rename_i sc rc heq4 heq5
            simp only [Prod.mk.injEq, true_and] at h
            exact ⟨sender, recipient, sbal, sc, rc, heq, heq2, heq3, hle, heq4, heq5,
              h.symm⟩
          · exact absurd h (by simp)
          · exact absurd h (by simp)
        · exact absurd h (by simp)

theorem deposit_ok_total {st : List Account} {uid : ℕ} {m : ℚ}
    (hn : (st.map Account.id).Nodup) (h : (deposit st uid m).1 = OpResult.ok) :
    total (deposit st uid m).2 = total st + m := by
  rcases deposit_split st uid m with ⟨st', he⟩ | he
  · obtain ⟨u, c, hf, hd, hst⟩ := deposit_ok_inv he
    rw [he]
    have hb := bind_deserialize_eq hd
    rw [hst, total_updateById _ hn hf, hb]
    simp only [rawVal_valid, rawVal, serializeCt, ctAdd, encrypt]
    ring
  · rw [he] at h; exact absurd h (by simp)

theorem withdraw_ok_total {st : List Account} {uid : ℕ} {m : ℚ}
    (hn : (st.map Account.id).Nodup) (h : (withdraw st uid m).1 = OpResult.ok) :
    total (withdraw st uid m).2 = total st - m := by
  rcases withdraw_split st uid m with ⟨st', he⟩ | he
  · obtain ⟨u, bal, c, hf, _, _, hd, hst⟩ := withdraw_ok_inv he
    rw [he]
    have hb := bind_deserialize_eq hd
    rw [hst, total_updateById _ hn hf, hb]
    simp only [rawVal_valid, rawVal, serializeCt, ctSub, encrypt]
    ring
  · rw [he] at h; exact absurd h (by simp)

theorem transfer_ok_total {st : List Account} {sid : ℕ} {rname : String} {m : ℚ}
    (hn : (st.map Account.id).Nodup)
    (hself : opNotSelf st (Op.transfer sid rname m) = true)
    (h : (transfer st sid rname m).1 = OpResult.ok) :
    total (transfer st sid rname m).2 = total st := by
  rcases transfer_split st sid rname m with ⟨st', he⟩ | he
  · obtain ⟨sender, recipient, sbal, sc, rc, hs, hr, hbal, hle, hsd, hrd, hst⟩ :=
      transfer_ok_inv he
    rw [he]
    have hrne : recipient.id ≠ sid := by
      simp only [opNotSelf, hr] at hself
      simpa using hself
    have hsb := bind_deserialize_eq hsd
    have hrb := bind_deserialize_eq hrd
    have hfr : findById st recipient.id = some recipient :=
      mem_findById (findByName_mem hr) hn
    have hn1 : ((updateById st sid (some (serializeCt (ctSub sc (encrypt m))))).map
        Account.id).Nodup := by
      rw [updateById_id_map]; exact hn
    have hfr1 : findById (updateById st sid (some (serializeCt (ctSub sc (encrypt m)))))
        recipient.id = some recipient := by
      rw [findById_updateById_ne _ _ hrne]; exact hfr
    rw [hst, total_updateById _ hn1 hfr1, total_updateById _ hn hs, hsb, hrb]
    simp only [rawVal_valid, rawVal, serializeCt, ctSub, ctAdd, encrypt]
    ring
  · rw [he] at h; exact absurd h (by simp)

theorem total_applyOp {st : List Account} {op : Op}
    (hn : (st.map Account.id).Nodup) (hself : opNotSelf st op = true) :
    total (applyOp st op).2 = total st + opDelta op (applyOp st op).1 := by
  cases op with
  | deposit uid m =>
    show total (deposit st uid m).2 = total st + opDelta (Op.deposit uid m) (deposit st uid m).1
    cases hres : (deposit st uid m).1 with
    | ok => rw [deposit_ok_total hn hres]; simp [opDelta]
    | err => rw [deposit_err hres]; simp [opDelta]
  | withdraw uid m =>
    show total (withdraw st uid m).2
        = total st + opDelta (Op.withdraw uid m) (withdraw st uid m).1
    cases hres : (withdraw st uid m).1 with
    | ok => rw [withdraw_ok_total hn hres]; simp [opDelta]; ring
    | err => rw [withdraw_err hres]; simp [opDelta]
  | transfer sid rname m =>
    show total (transfer st sid rname m).2
        = total st + opDelta (Op.transfer sid rname m) (transfer st sid rname m).1
    cases hres : (transfer st sid rname m).1 with
    | ok => rw [transfer_ok_total hn hself hres]; simp [opDelta]
    | err => rw [transfer_err hres]; simp [opDelta]

/-- C7: the codec round-trip is exact in the idealized model: deserializing the
encoded balance and decrypting returns exactly `x`, hence within any
approximation tolerance of `x`, for every rational `x`. -/
theorem claim7_codec_round_trip (x : ℚ) :
    decodeBalanceRaw (encodeBalance x) = some x := rfl

/-- C9: a falsy (absent) stored blob reads as balance `0.0` rather than an
error, and the balance getter fails exactly on present-but-undeserializable
bytes. -/
theorem claim9_absent_blob_reads_zero :
    balanceOf none = some 0 ∧
      ∀ ob : Option Blob, balanceOf ob = none ↔ ob = some Blob.malformed := by
  refine ⟨rfl, ?_⟩
  intro ob
  match ob with
  | none => simp [balanceOf]
  | some (Blob.valid v) => simp [balanceOf]
  | some Blob.malformed => simp [balanceOf]

/-- C1 (amended): conservation of the exact decrypted total holds for every
sequence of Deposit/Withdraw/Transfer operations in which no transfer resolves
its recipient username to the sender's own row: the final total equals the
initial total plus the successfully deposited amounts minus the successfully
withdrawn amounts, and successful transfers between distinct rows leave the
total unchanged.  A successful self-transfer increases the total by the
transferred amount, refuting the unrestricted claim (see the
counterexample). -/
theorem claim1_conservation (ops : List Op) :
    ∀ st : List Account, (st.map Account.id).Nodup → noSelfTransferB st ops = true →
      total (runNet st ops).1 = total st + (runNet st ops).2 := by
  induction ops with
  | nil =>
    intro st _ _
    simp [runNet]
  | cons op rest ih =>
    intro st hn hns
    rw [noSelfTransferB, Bool.and_eq_true] at hns
    obtain ⟨h1, h2⟩ := hns
    have hn' : (((applyOp st op).2).map Account.id).Nodup := by
      rw [applyOp_id_map]; exact hn
    have key := total_applyOp hn h1
    have ihx := ih (applyOp st op).2 hn' h2
    simp only [runNet]
    rw [ihx, key]
    ring

theorem claim1_witness :
    total (runNet [⟨1, "alice", some (Blob.valid 100)⟩, ⟨2, "bob", some (Blob.valid 50)⟩]
        [Op.deposit 1 25, Op.transfer 1 "bob" 30, Op.withdraw 2 10]).1
      = total [⟨1, "alice", some (Blob.valid 100)⟩, ⟨2, "bob", some (Blob.valid 50)⟩]
        + (runNet [⟨1, "alice", some (Blob.valid 100)⟩, ⟨2, "bob", some (Blob.valid 50)⟩]
            [Op.deposit 1 25, Op.transfer 1 "bob" 30, Op.withdraw 2 10]).2 :=
  claim1_conservation _ _ (by with_unfolding_all decide) (by with_unfolding_all decide)

theorem claim1_counterexample :
    (transfer [⟨1, "alice", some (Blob.valid 10)⟩] 1 "alice" 5).1 = OpResult.ok ∧
      total (transfer [⟨1, "alice", some (Blob.valid 10)⟩] 1 "alice" 5).2
          ≠ total [⟨1, "alice", some (Blob.valid 10)⟩] ∧
      (runNet [⟨1, "alice", some (Blob.valid 10)⟩] [Op.transfer 1 "alice" 5]).2 = 0 ∧
      total (runNet [⟨1, "alice", some (Blob.valid 10)⟩] [Op.transfer 1 "alice" 5]).1
          ≠ total [⟨1, "alice", some (Blob.valid 10)⟩]
            + (runNet [⟨1, "alice", some (Blob.valid 10)⟩] [Op.transfer 1 "alice" 5]).2 := by
  with_unfolding_all decide

/-- C2: Withdraw and Transfer never succeed for an amount strictly greater than
the account's current decrypted balance (the value the program's balance
getter reads), and every failed Withdraw or Transfer leaves the entire stored
ledger — every account's serialized ciphertext — exactly as it was. -/
theorem claim2_no_overdraw :
    (∀ (st : List Account) (uid : ℕ) (u : Account) (bal m : ℚ),
        findById st uid = some u → balanceOf u.blob = some bal → bal < m →
        withdraw st uid m = (OpResult.err, st)) ∧
    (∀ (st : List Account) (sid : ℕ) (s : Account) (rname : String) (bal m : ℚ),
        findById st sid = some s → balanceOf s.blob = some bal → bal < m →
        transfer st sid rname m = (OpResult.err, st)) ∧
    (∀ (st : List Account) (uid : ℕ) (m : ℚ),
        (withdraw st uid m).1 = OpResult.err → (withdraw st uid m).2 = st) ∧
    (∀ (st : List Account) (sid : ℕ) (rname : String) (m : ℚ),
        (transfer st sid rname m).1 = OpResult.err → (transfer st sid rname m).2 = st) := by
  refine ⟨?_, ?_, fun _ _ _ h => withdraw_err h, fun _ _ _ _ h => transfer_err h⟩
  · intro st uid u bal m hf hb hlt
    simp [withdraw, hf, hb, if_neg (not_le.mpr hlt)]
  · intro st sid s rname bal m hf hb hlt
    rcases hr : findByName st rname with _ | r
    · simp [transfer, hf, hr]
    · simp [transfer, hf, hr, hb, if_neg (not_le.mpr hlt)]

theorem claim2_witness :
    withdraw [⟨1, "alice", some (Blob.valid 10)⟩] 1 50
        = (OpResult.err, [⟨1, "alice", some (Blob.valid 10)⟩]) ∧
      transfer [⟨1, "alice", some (Blob.valid 10)⟩, ⟨2, "bob", some (Blob.valid 5)⟩] 1 "bob" 50
        = (OpResult.err,
            [⟨1, "alice", some (Blob.valid 10)⟩, ⟨2, "bob", some (Blob.valid 5)⟩]) :=
  ⟨claim2_no_overdraw.1 _ 1 ⟨1, "alice", some (Blob.valid 10)⟩ (round2 10) 50 rfl rfl
      (by with_unfolding_all decide),
    claim2_no_overdraw.2.1 _ 1 ⟨1, "alice", some (Blob.valid 10)⟩ "bob" (round2 10) 50 rfl rfl
      (by with_unfolding_all decide)⟩

/-- C3 (amended): Transfer requires only that the recipient username exists;
when it does not, the transfer is rejected with no mutation of any stored
balance.  The source places no requirement that the recipient differ from the
sender: a self-transfer passing the balance check succeeds (see the
counterexample). -/
theorem claim3_recipient_must_exist :
    ∀ (st : List Account) (sid : ℕ) (rname : String) (m : ℚ),
      findByName st rname = none → transfer st sid rname m = (OpResult.err, st) := by
  intro st sid rname m hr
  rcases hs : findById st sid with _ | sender
  · simp [transfer, hs]
  · simp [transfer, hs, hr]

theorem claim3_witness :
    transfer [⟨1, "alice", some (Blob.valid 10)⟩] 1 "carol" 5
      = (OpResult.err, [⟨1, "alice", some (Blob.valid 10)⟩]) :=
  claim3_recipient_must_exist _ 1 "carol" 5 (by with_unfolding_all decide)

theorem claim3_counterexample :
    (transfer [⟨1, "alice", some (Blob.valid 10)⟩] 1 "alice" 4).1 = OpResult.ok ∧
      (transfer [⟨1, "alice", some (Blob.valid 10)⟩] 1 "alice" 4).2
        ≠ [⟨1, "alice", some (Blob.valid 10)⟩] := by
  with_unfolding_all decide

/-- C4 (amended): Withdraw performs no positivity or finiteness check on the
amount: for an account with a deserializable stored balance it succeeds
exactly when the two-digit-rounded decrypted balance is at least the amount —
including zero and negative amounts, which pass the check and increase the
balance — and on success the new stored balance is the homomorphic difference
of the current balance and the encrypted amount. -/
theorem claim4_no_positivity_check :
    ∀ (st : List Account) (uid : ℕ) (u : Account) (ct : Ciphertext) (m : ℚ),
      findById st uid = some u → u.blob.bind deserializeCt = some ct →
      withdraw st uid m =
        if m ≤ round2 ct.value then
          (OpResult.ok, updateById st uid (some (serializeCt (ctSub ct (encrypt m)))))
        else (OpResult.err, st) := by
  intro st uid u ct m hf hd
  have hb := bind_deserialize_eq hd
  by_cases hle : m ≤ round2 ct.value
  · rw [if_pos hle]
    simp [withdraw, hf, hb, balanceOf, if_pos hle, deserializeCt]
  · rw [if_neg hle]
    simp [withdraw, hf, hb, balanceOf, if_neg hle]

theorem claim4_witness :
    withdraw [⟨1, "alice", some (Blob.valid 8)⟩] 1 (-2)
      = if (-2 : ℚ) ≤ round2 8 then
          (OpResult.ok, updateById [⟨1, "alice", some (Blob.valid 8)⟩] 1
            (some (serializeCt (ctSub ⟨8⟩ (encrypt (-2))))))
        else (OpResult.err, [⟨1, "alice", some (Blob.valid 8)⟩]) :=
  claim4_no_positivity_check _ 1 ⟨1, "alice", some (Blob.valid 8)⟩ ⟨8⟩ (-2) rfl rfl

theorem claim4_counterexample :
    (withdraw [⟨1, "alice", some (Blob.valid 0)⟩] 1 (-1)).1 = OpResult.ok ∧
      (withdraw [⟨1, "alice", some (Blob.valid 0)⟩] 1 (-1)).2
        = [⟨1, "alice", some (Blob.valid 1)⟩] := by
  with_unfolding_all decide

/-- C5: self-transfer creates money: when sender lookup by id and recipient
lookup by username resolve to the same row holding decrypted balance `b`, and
the implementation's check `round2 b ≥ amount` passes, the transfer succeeds
and — the credit write replacing the debit write on the shared row — the
account's new decrypted balance is `b + amount` rather than `b`. -/
theorem claim5_self_transfer_creates_money :
    ∀ (st : List Account) (sid : ℕ) (rname : String) (sender : Account)
      (ct : Ciphertext) (m : ℚ),
      findById st sid = some sender → findByName st rname = some sender →
      sender.blob.bind deserializeCt = some ct → m ≤ round2 ct.value →
      transfer st sid rname m
          = (OpResult.ok, updateById st sid (some (serializeCt (ctAdd ct (encrypt m)))))
        ∧ decryptSlot (ctAdd ct (encrypt m)) = decryptSlot ct + m := by
  intro st sid rname sender ct m hf hr hd hle
  have hb := bind_deserialize_eq hd
  have hid : sender.id = sid := findById_id hf
  refine ⟨?_, rfl⟩
  have step : transfer st sid rname m
      = (OpResult.ok,
          updateById (updateById st sid (some (serializeCt (ctSub ct (encrypt m)))))
            sender.id (some (serializeCt (ctAdd ct (encrypt m))))) := by
    simp [transfer, hf, hr, hb, balanceOf, if_pos hle, deserializeCt]
  rw [step, hid, updateById_updateById_same]

theorem claim5_witness :
    transfer [⟨1, "alice", some (Blob.valid 10)⟩] 1 "alice" 7
        = (OpResult.ok, updateById [⟨1, "alice", some (Blob.valid 10)⟩] 1
            (some (serializeCt (ctAdd ⟨10⟩ (encrypt 7)))))
      ∧ decryptSlot (ctAdd ⟨10⟩ (encrypt 7)) = decryptSlot ⟨10⟩ + 7 :=
  claim5_self_transfer_creates_money _ 1 "alice" ⟨1, "alice", some (Blob.valid 10)⟩ ⟨10⟩ 7
    rfl rfl rfl (by with_unfolding_all decide)

/-- C6: Deposit checks nothing about the amount: for every account with a
deserializable stored balance and every amount — zero and negative included —
it succeeds and stores the homomorphic sum of the current balance and the
encrypted amount, whose decrypted slot is exactly the previous value plus the
amount. -/
theorem claim6_deposit_unchecked :
    ∀ (st : List Account) (uid : ℕ) (u : Account) (c : Ciphertext) (m : ℚ),
      findById st uid = some u → u.blob.bind deserializeCt = some c →
      deposit st uid m
          = (OpResult.ok, updateById st uid (some (serializeCt (ctAdd c (encrypt m)))))
        ∧ decryptSlot (ctAdd c (encrypt m)) = decryptSlot c + m := by
  intro st uid u c m hf hd
  have hb := bind_deserialize_eq hd
  exact ⟨by simp [deposit, hf, hb, deserializeCt], rfl⟩

theorem claim6_witness :
    deposit [⟨1, "alice", some (Blob.valid 100)⟩] 1 (-3)
        = (OpResult.ok, updateById [⟨1, "alice", some (Blob.valid 100)⟩] 1
            (some (serializeCt (ctAdd ⟨100⟩ (encrypt (-3))))))
      ∧ decryptSlot (ctAdd ⟨100⟩ (encrypt (-3))) = decryptSlot ⟨100⟩ + (-3) :=
  claim6_deposit_unchecked _ 1 ⟨1, "alice", some (Blob.valid 100)⟩ ⟨100⟩ (-3) rfl rfl

/-- C8: registration with a fresh username succeeds and creates the account
with stored balance `Encrypt(0.0)` (the encrypted setter applied to `0.0`),
and reading the new account's balance through the getter yields `0.0`. -/
theorem claim8_register_zero :
    ∀ (st : List Account) (uname : String),
      (st.any fun a => a.username == uname) = false →
      register st uname
          = (OpResult.ok,
              st ++ [{ id := freshId st, username := uname, blob := balanceSetter 0 }])
        ∧ balanceSetter 0 = some (serializeCt (encrypt 0))
        ∧ balanceOf (balanceSetter 0) = some 0 := by
  intro st uname h
  refine ⟨by simp [register, h], rfl, ?_⟩
  show balanceOf (some (Blob.valid 0)) = some 0
  rw [balanceOf_valid]
  have h0 : round2 0 = 0 := by with_unfolding_all decide
  rw [h0]

theorem claim8_witness :
    register [] "alice"
        = (OpResult.ok,
            [] ++ [{ id := freshId [], username := "alice", blob := balanceSetter 0 }])
      ∧ balanceSetter 0 = some (serializeCt (encrypt 0))
      ∧ balanceOf (balanceSetter 0) = some 0 :=
  claim8_register_zero [] "alice" rfl

/-- C10: the sufficiency checks of Withdraw and Transfer compare the amount
against the two-digit-rounded decrypted balance, not the raw decrypted value:
each succeeds exactly when `amount ≤ round2 rawBalance`; concretely, a stored
raw balance of 9.996 (rounding to 10.00) authorizes a withdrawal of 10, which
proceeds and drives the raw balance negative. -/
theorem claim10_rounded_comparison :
    (∀ (st : List Account) (uid : ℕ) (u : Account) (ct : Ciphertext) (m : ℚ),
        findById st uid = some u → u.blob.bind deserializeCt = some ct →
        ((withdraw st uid m).1 = OpResult.ok ↔ m ≤ round2 ct.value)) ∧
    (∀ (st : List Account) (sid : ℕ) (rname : String) (s r : Account)
        (sc rc : Ciphertext) (m : ℚ),
        findById st sid = some s → findByName st rname = some r →
        s.blob.bind deserializeCt = some sc → r.blob.bind deserializeCt = some rc →
        ((transfer st sid rname m).1 = OpResult.ok ↔ m ≤ round2 sc.value)) ∧
    ((2499/250 : ℚ) < 10 ∧ (10 : ℚ) ≤ round2 (2499/250) ∧
      withdraw [⟨1, "alice", some (Blob.valid (2499/250))⟩] 1 10
        = (OpResult.ok, [⟨1, "alice", some (Blob.valid (2499/250 - 10))⟩])) := by
  refine ⟨?_, ?_, by with_unfolding_all decide⟩
  · intro st uid u ct m hf hd
    have hb := bind_deserialize_eq hd
    constructor
    · intro h
      by_contra hnle
      have he : withdraw st uid m = (OpResult.err, st) := by
        simp [withdraw, hf, hb, balanceOf, if_neg hnle]
      rw [he] at h
      exact absurd h (by simp)
    · intro hle
      have he : withdraw st uid m
          = (OpResult.ok, updateById st uid (some (serializeCt (ctSub ct (encrypt m))))) := by
        simp [withdraw, hf, hb, balanceOf, if_pos hle, deserializeCt]
      rw [he]
  · intro st sid rname s r sc rc m hs hr hsd hrd
    have hsb := bind_deserialize_eq hsd
    have hrb := bind_deserialize_eq hrd
    constructor
    · intro h
      by_contra hnle
      have he : transfer st sid rname m = (OpResult.err, st) := by
        simp [transfer, hs, hr, hsb, balanceOf, if_neg hnle]
      rw [he] at h
      exact absurd h (by simp)
    · intro hle
      have he : (transfer st sid rname m).1 = OpResult.ok := by
        simp [transfer, hs, hr, hsb, hrb, balanceOf, if_pos hle, deserializeCt]
      exact he

theorem claim10_witness :
    (withdraw [⟨1, "alice", some (Blob.valid 10)⟩] 1 3).1 = OpResult.ok
      ↔ (3 : ℚ) ≤ round2 10 :=
  claim10_rounded_comparison.1 _ 1 ⟨1, "alice", some (Blob.valid 10)⟩ ⟨10⟩ 3 rfl rfl

end EncLedger
